import Mathlib

/-!
Shallow embedding of the two C++ translation units of this repository:

* `src/mnn_correction.cpp` — `smooth_gaussian_kernel` (deque-based average
  aggregation, separate division pass for the kernel exponent, hand-written
  log-sum-exp accumulation) and `adjust_shift_variance` together with the
  helper `sq_distance_to_line`;
* `src/smooth_gaussian_kernel.cpp` — the second `smooth_gaussian_kernel`
  (fixed-size vector aggregation, inline division, `R::logspace_add`).

Machine doubles are modelled by exact real numbers.  For
`adjust_shift_variance`, whose specified behaviour includes NA / NaN
sentinels, values are modelled by `Option ℝ` where `none` stands for a
non-finite value (NaN or R's NA, which is itself a NaN payload): arithmetic
propagates `none`, comparisons against `none` are false, and division by
zero produces `none` — matching IEEE NaN behaviour on the code paths the
program can reach with finite inputs.

Matrices delivered by the external `beachmat` accessor are modelled by an
abstract dimension-plus-entry record, mirroring the spec's MatrixAccessor
interface (row and column reads only).
-/

namespace Batchelor

noncomputable section

/-- Abstract numeric matrix as handed out by the external matrix accessor:
explicit dimensions and an entry function (row index first). -/
structure Mat where
  nrow : ℕ
  ncol : ℕ
  entry : ℕ → ℕ → ℝ

/-- Row `i` of a matrix, as read by `get_row` (length `ncol`). -/
def Mat.row (M : Mat) (i : ℕ) : List ℝ :=
  (List.range M.ncol).map (fun j => M.entry i j)

/-- Column `j` of a matrix, as read by `get_const_col` (length `nrow`). -/
def Mat.col (M : Mat) (j : ℕ) : List ℝ :=
  (List.range M.nrow).map (fun i => M.entry i j)

/-- Errors surfaced by the two entry points: the dimension mismatches thrown
with `std::runtime_error`, and the invalid-σ² rejection of the option check. -/
inductive Err where
  | pairsMismatch : Err
  | genesMismatch : Err
  | cellsMismatch : Err
  | invalidArg : Err
deriving DecidableEq

/-- Modelled from the spec: `check_numeric_scalar` is declared in the
repository's `utils.h`, which is not part of the provided sources.  Per the
spec (§7 NumericInstability), a caller-supplied σ² ≤ 0 is a precondition
violation that fails fast as an InvalidArgument; a valid σ² is returned
unchanged. -/
def check_numeric_scalar (s2 : ℝ) : Except Err ℝ :=
  if s2 ≤ 0 then .error .invalidArg else .ok s2

/-! ### Average-vector aggregation (`AverageAggregator`)

Both translation units build, before smoothing, a per-anchor sum of the
correction-vector rows sharing that anchor identifier, dividing by the count
afterwards.  The aggregation consumes the list of `(index entry, row)` pairs
in order.  Containers indexed by anchor identifier are modelled as total
functions from `ℕ` (C++ out-of-bounds accesses are undefined behaviour; the
bounds themselves are treated by the safety claim). -/

/-- State of the deque-based aggregation loop of `mnn_correction.cpp`:
the current deque size, the per-identifier running vectors, the
per-identifier counts, and the ordered set `mnncell`. -/
structure AggA where
  sz : ℕ
  averages : ℕ → List ℝ
  number : ℕ → ℕ
  mnncell : Finset ℕ

/-- One iteration of the aggregation loop of `mnn_correction.cpp`
(lines 23–45): a fresh slot (index beyond the deque, or a slot holding a
length-0 vector) receives the row with count 1 and joins `mnncell`; an
occupied slot accumulates the row and bumps its count.  The deque is resized
to `i + 1` only when the index is past its end. -/
def aggStepA (st : AggA) (p : ℤ × List ℝ) : AggA :=
  let d := p.1.toNat
  if st.sz ≤ d ∨ (st.averages d).length = 0 then
    { sz := if st.sz ≤ d then d + 1 else st.sz
      averages := Function.update st.averages d p.2
      number := Function.update st.number d 1
      mnncell := insert d st.mnncell }
  else
    { sz := st.sz
      averages := Function.update st.averages d (List.zipWith (· + ·) (st.averages d) p.2)
      number := Function.update st.number d (st.number d + 1)
      mnncell := st.mnncell }

/-- The deque-based aggregation loop of `mnn_correction.cpp`, folded over the
`(index, row)` pairs; deques start empty, slots default to empty vectors and
zero counts. -/
def aggA (ps : List (ℤ × List ℝ)) : AggA :=
  ps.foldl aggStepA ⟨0, fun _ => [], fun _ => 0, ∅⟩

/-- State of the fixed-size aggregation loop of `smooth_gaussian_kernel.cpp`:
per-identifier running vectors (default-constructed to length 0), counts,
and the ordered set `mnncell`. -/
structure AggB where
  averages : ℕ → List ℝ
  number : ℕ → ℕ
  mnncell : Finset ℕ

/-- One iteration of the aggregation loop of `smooth_gaussian_kernel.cpp`
(lines 30–49): the count is always incremented; membership of `pair_dex` in
`mnncell` decides between accumulating into the slot and cloning the row
into it. -/
def aggStepB (st : AggB) (p : ℤ × List ℝ) : AggB :=
  let d := p.1.toNat
  if d ∈ st.mnncell then
    { averages := Function.update st.averages d (List.zipWith (· + ·) (st.averages d) p.2)
      number := Function.update st.number d (st.number d + 1)
      mnncell := st.mnncell }
  else
    { averages := Function.update st.averages d p.2
      number := Function.update st.number d (st.number d + 1)
      mnncell := insert d st.mnncell }

/-- The fixed-size aggregation loop of `smooth_gaussian_kernel.cpp`, folded
over the `(index, row)` pairs. -/
def aggB (ps : List (ℤ × List ℝ)) : AggB :=
  ps.foldl aggStepB ⟨fun _ => [], fun _ => 0, ∅⟩

/-- The final division pass shared verbatim by both translation units: every
slot listed in `mnncell` is divided elementwise by its count; other slots
are left untouched. -/
def finalAvg (avg : ℕ → List ℝ) (num : ℕ → ℕ) (cells : Finset ℕ) : ℕ → List ℝ :=
  fun d => if d ∈ cells then (avg d).map (fun t => t / (num d : ℝ)) else avg d

/-- Anchor identifiers of the index entries, as the nonnegative cell indices
they are used as (`Int.toNat` mirrors the `int` to `size_t` indexing). -/
def idsOf (ps : List (ℤ × List ℝ)) : List ℕ :=
  ps.map (fun p => p.1.toNat)

/-- Number of rows sharing anchor identifier `d`. -/
def countOf (ps : List (ℤ × List ℝ)) (d : ℕ) : ℕ :=
  (ps.filter (fun p => p.1.toNat = d)).length

/-- Elementwise sum of the rows sharing anchor identifier `d`, over `ngenes`
features (absent features read as 0, matching rows of length `ngenes`). -/
def sumVecOf (ngenes : ℕ) (ps : List (ℤ × List ℝ)) (d : ℕ) : List ℝ :=
  (List.range ngenes).map (fun g =>
    ((ps.filter (fun p => p.1.toNat = d)).map (fun p => p.2.getD g 0)).sum)

/-- Arithmetic mean of the rows sharing anchor identifier `d`. -/
def meanVecOf (ngenes : ℕ) (ps : List (ℤ × List ℝ)) (d : ℕ) : List ℝ :=
  (sumVecOf ngenes ps d).map (fun t => t / (countOf ps d : ℝ))

/-! ### Gaussian-kernel smoothing (`KernelSmoother`) -/

/-- Squared Euclidean distance between columns `a` and `s` of the expression
matrix, accumulated feature by feature as in both smoothing loops. -/
def dist2 (data : Mat) (a s : ℕ) : ℝ :=
  (List.range data.nrow).foldl
    (fun acc g => acc + (data.entry g a - data.entry g s) * (data.entry g a - data.entry g s)) 0

/-- R's `log1pexp`, used by `mnn_correction.cpp`: log(1 + exp x) (the
numerically-stabilised branches of the R implementation all compute this
value). -/
def log1pexp (x : ℝ) : ℝ :=
  Real.log (1 + Real.exp x)

/-- R's `logspace_add`, used by `smooth_gaussian_kernel.cpp`:
log(exp x + exp y) computed stably as max + log1p(exp(−|x−y|)). -/
def logspace_add (x y : ℝ) : ℝ :=
  max x y + Real.log (1 + Real.exp (-|x - y|))

/-- Density accumulation of `mnn_correction.cpp` (lines 92–101): a running
value starting as `NA_REAL` (modelled by `none`), replaced by the first
log-probability and thereafter combined by
`max + log1pexp(−|difference|)`.  The `NA` start never survives a nonempty
anchor set; an empty fold is read back as 0. -/
def densityA (ds : ℕ → ℝ) (l : List ℕ) : ℝ :=
  (l.foldl
    (fun acc m =>
      match acc with
      | none => some (ds m)
      | some dd => some (max (ds m) dd + log1pexp (-|ds m - dd|)))
    none).getD 0

/-- Density accumulation of `smooth_gaussian_kernel.cpp` (lines 88–97): a
`starting` flag selects between seeding with the first log-probability and
`R::logspace_add`. -/
def densityB (ds : ℕ → ℝ) (l : List ℕ) : ℝ :=
  (l.foldl
    (fun acc m =>
      if acc.1 then (false, ds m) else (false, logspace_add acc.2 (ds m)))
    (true, (0 : ℝ))).2

/-- The accumulation loop shared verbatim by both translation units
(`output` starts as an `ngenes × ncells` zero matrix, `totalprob` as zeros):
for each anchor, every cell receives weight `mult` and adds the weighted
correction vector into its output column. -/
def smoothState (fin : ℕ → List ℝ) (mnnList : List ℕ) (mult : ℕ → ℕ → ℝ)
    (ngenes ncells : ℕ) : List (List ℝ) × List ℝ :=
  mnnList.foldl
    (fun st a =>
      let ms := (List.range ncells).map (mult a)
      (List.zipWith (fun col m => List.zipWith (fun x c => x + c * m) col (fin a)) st.1 ms,
       List.zipWith (· + ·) st.2 ms))
    (List.replicate ncells (List.replicate ngenes 0), List.replicate ncells 0)

/-- The final normalisation shared verbatim by both translation units: each
output column is divided by the cell's total accumulated weight. -/
def normalizeOut (st : List (List ℝ) × List ℝ) : List (List ℝ) :=
  List.zipWith (fun col t => col.map (fun v => v / t)) st.1 st.2

/-- The `(index entry, correction-vector row)` pairs consumed by the
aggregation loops. -/
def pairsOf (vect : Mat) (index : List ℤ) : List (ℤ × List ℝ) :=
  index.zip ((List.range vect.nrow).map vect.row)

/-- Aggregation state reached by `smooth_gaussian_kernel` of
`mnn_correction.cpp`. -/
def aggOfA (vect : Mat) (index : List ℤ) : AggA :=
  aggA (pairsOf vect index)

/-- Aggregation state reached by `smooth_gaussian_kernel` of
`smooth_gaussian_kernel.cpp`. -/
def aggOfB (vect : Mat) (index : List ℤ) : AggB :=
  aggB (pairsOf vect index)

/-- Per-anchor mean correction vectors of `mnn_correction.cpp` after the
division pass. -/
def finA (vect : Mat) (index : List ℤ) : ℕ → List ℝ :=
  finalAvg (aggOfA vect index).averages (aggOfA vect index).number (aggOfA vect index).mnncell

/-- Per-anchor mean correction vectors of `smooth_gaussian_kernel.cpp` after
the division pass. -/
def finB (vect : Mat) (index : List ℤ) : ℕ → List ℝ :=
  finalAvg (aggOfB vect index).averages (aggOfB vect index).number (aggOfB vect index).mnncell

/-- Iteration order of the `std::set` of anchor identifiers (ascending). -/
def mnnListA (vect : Mat) (index : List ℤ) : List ℕ :=
  (aggOfA vect index).mnncell.sort (· ≤ ·)

/-- Iteration order of the `std::set` of anchor identifiers (ascending). -/
def mnnListB (vect : Mat) (index : List ℤ) : List ℕ :=
  (aggOfB vect index).mnncell.sort (· ≤ ·)

/-- Cell weights of `mnn_correction.cpp`: squared distances are filled for
all cells, divided by −σ² in a separate pass, folded into the hand-written
log-sum-exp density, and exponentiated relative to it. -/
def multA (vect : Mat) (index : List ℤ) (data : Mat) (s2 : ℝ) : ℕ → ℕ → ℝ :=
  fun a s =>
    let ds := fun t => dist2 data a t
    let dsDiv := fun t => ds t / (-s2)
    Real.exp (dsDiv s - densityA dsDiv (mnnListA vect index))

/-- Cell weights of `smooth_gaussian_kernel.cpp`: each squared distance is
divided by −σ² inline, folded through `R::logspace_add`, and exponentiated
relative to the density. -/
def multB (vect : Mat) (index : List ℤ) (data : Mat) (s2 : ℝ) : ℕ → ℕ → ℝ :=
  fun a s =>
    let dsDiv := fun t => dist2 data a t / (-s2)
    Real.exp (dsDiv s - densityB dsDiv (mnnListB vect index))

/-- Pre-normalisation output and total weights of `mnn_correction.cpp`. -/
def stateA (vect : Mat) (index : List ℤ) (data : Mat) (s2 : ℝ) : List (List ℝ) × List ℝ :=
  smoothState (finA vect index) (mnnListA vect index) (multA vect index data s2)
    vect.ncol data.ncol

/-- Pre-normalisation output and total weights of
`smooth_gaussian_kernel.cpp`. -/
def stateB (vect : Mat) (index : List ℤ) (data : Mat) (s2 : ℝ) : List (List ℝ) × List ℝ :=
  smoothState (finB vect index) (mnnListB vect index) (multB vect index data s2)
    vect.ncol data.ncol

/-- Per-cell total accumulated kernel weight of `smooth_gaussian_kernel.cpp`
(`totalprob`). -/
def totalprobB (vect : Mat) (index : List ℤ) (data : Mat) (s2 : ℝ) : List ℝ :=
  (stateB vect index data s2).2

/-- `smooth_gaussian_kernel` of `mnn_correction.cpp` (lines 6–131): the
row-count check throws first; σ² is validated by `check_numeric_scalar`
after the averages are built; the smoothed, density-weighted and finally
normalised `ngenes × ncells` field is returned as its list of columns. -/
def smooth_gaussian_kernel_A (vect : Mat) (index : List ℤ) (data : Mat) (s2 : ℝ) :
    Except Err (List (List ℝ)) :=
  if index.length ≠ vect.nrow then .error .pairsMismatch
  else
    match check_numeric_scalar s2 with
    | .error e => .error e
    | .ok _ => .ok (normalizeOut (stateA vect index data s2))

/-- `smooth_gaussian_kernel` of `smooth_gaussian_kernel.cpp` (lines 9–127):
identical interface; σ² is validated before the aggregation. -/
def smooth_gaussian_kernel_B (vect : Mat) (index : List ℤ) (data : Mat) (s2 : ℝ) :
    Except Err (List (List ℝ)) :=
  if index.length ≠ vect.nrow then .error .pairsMismatch
  else
    match check_numeric_scalar s2 with
    | .error e => .error e
    | .ok _ => .ok (normalizeOut (stateB vect index data s2))

/-! ### Variance adjustment (`VarianceAdjuster`)

`adjust_shift_variance` can produce NaN / NA sentinels (zero-norm gradients
divide by zero; an empty reference population leaves `ref_quan` at
`R_NaReal`).  Doubles in this routine are therefore modelled by `RV :=
Option ℝ` with `none` standing for a non-finite value: arithmetic
propagates `none`, dividing by zero yields `none`, and ordered comparisons
involving `none` are false, as for IEEE NaN. -/

/-- A double that may be non-finite (NaN / NA). -/
def RV : Type := Option ℝ

/-- Addition, propagating non-finite values. -/
def radd : RV → RV → RV
  | some a, some b => some (a + b)
  | _, _ => none

/-- Subtraction, propagating non-finite values. -/
def rsub : RV → RV → RV
  | some a, some b => some (a - b)
  | _, _ => none

/-- Multiplication, propagating non-finite values. -/
def rmul : RV → RV → RV
  | some a, some b => some (a * b)
  | _, _ => none

/-- Negation, propagating non-finite values. -/
def rneg : RV → RV
  | some a => some (-a)
  | none => none

/-- Division: dividing by zero is non-finite, and non-finite values
propagate. -/
def rdiv : RV → RV → RV
  | some a, some b => if b = 0 then none else some (a / b)
  | _, _ => none

/-- Exponential, propagating non-finite values (only ever applied to NaN
arising from 0/0 on the reachable paths, never to −∞). -/
def rexp : RV → RV
  | some a => some (Real.exp a)
  | none => none

/-- The `<=` comparison of the C code: false whenever either side is
non-finite, as for IEEE NaN. -/
def rle : RV → RV → Bool
  | some a, some b => decide (a ≤ b)
  | _, _ => false

/-- Left fold of `init + x₀ + x₁ + ⋯`, the accumulation pattern of
`std::inner_product` and of the running-sum loops. -/
def rsum (l : List RV) : RV :=
  l.foldl radd (some 0)

/-- `std::inner_product(xs.begin(), xs.end(), ys, 0.0)`. -/
def rinner (xs ys : List RV) : RV :=
  (List.zipWith rmul xs ys).foldl radd (some 0)

/-- `sq_distance_to_line` of `mnn_correction.cpp` (lines 135–155): the
difference vector from `point` to `ref`, its scalar product with the unit
gradient, and the squared norm of the residual after removing the gradient
component. -/
def sq_distance_to_line (ref grad point : List RV) : RV :=
  let working := List.zipWith rsub ref point
  let scale := rinner working grad
  rsum ((List.zipWith (fun w g => rsub w (rmul scale g)) working grad).map (fun w => rmul w w))

/-- ℓ2 norm of the gradient row of query cell `c`, accumulated entry by
entry as in lines 187–192 (an exact real: finite inputs give a finite
norm). -/
def l2normOf (v : Mat) (c : ℕ) : ℝ :=
  Real.sqrt ((v.row c).foldl (fun acc g => acc + g * g) 0)

/-- The gradient row of cell `c` after the in-place division by its ℓ2 norm
(lines 193–195); a zero norm makes every entry non-finite. -/
def unitGradOf (v : Mat) (c : ℕ) : List RV :=
  (v.row c).map (fun g => rdiv (some g) (some (l2normOf v c)))

/-- A feature column lifted into the non-finite-aware domain. -/
def liftCol (M : Mat) (j : ℕ) : List RV :=
  (M.col j).map some

/-- `curproj` (line 197): projection of cell `c` onto its unit gradient. -/
def curprojOf (d2 v : Mat) (c : ℕ) : RV :=
  rinner (unitGradOf v c) (liftCol d2 c)

/-- Gaussian kernel weight of a cell at squared line distance `dist`
(`std::exp(-dist/s2)`). -/
def kernelWeight (s2 : ℝ) (dist : RV) : RV :=
  rexp (rdiv (rneg dist) (some s2))

/-- The cumulative-probability loop over the query batch (lines 200–217):
cell `c` contributes weight 1 to both sums directly; any other cell
contributes its kernel weight to the total and, when its projection is at
or before `curproj`, to the cumulative part.  The result is the normalised
`prob2`. -/
def prob2Of (d2 v : Mat) (s2 : ℝ) (c : ℕ) : RV :=
  let tot :=
    (List.range d2.ncol).foldl
      (fun pr same =>
        if same = c then (radd pr.1 (some 1), radd pr.2 (some 1))
        else
          let samecell := liftCol d2 same
          let sameproj := rinner (unitGradOf v c) samecell
          let samedist := sq_distance_to_line (liftCol d2 c) (unitGradOf v c) samecell
          let sameprob := kernelWeight s2 samedist
          (if rle sameproj (curprojOf d2 v c) then radd pr.1 sameprob else pr.1,
           radd pr.2 sameprob))
      ((some 0 : RV), (some 0 : RV))
  rdiv tot.1 tot.2

/-- The unsorted `(projection, kernel weight)` pairs of the reference batch
(lines 220–226). -/
def distance1Of (d1 d2 v : Mat) (s2 : ℝ) (c : ℕ) : List (RV × RV) :=
  (List.range d1.ncol).map (fun other =>
    let othercell := liftCol d1 other
    (rinner (unitGradOf v c) othercell,
     kernelWeight s2 (sq_distance_to_line (liftCol d2 c) (unitGradOf v c) othercell)))

/-- `totalprob1`, accumulated while the pairs are filled in (before the
sort). -/
def totalprob1Of (d1 d2 v : Mat) (s2 : ℝ) (c : ℕ) : RV :=
  rsum ((distance1Of d1 d2 v s2 c).map Prod.snd)

/-- Tie-break comparison on the weight component (`none` ordered first). -/
def sndLe : RV → RV → Bool
  | none, _ => true
  | some _, none => false
  | some b, some d => decide (b ≤ d)

/-- The `std::pair` comparison driving `std::sort`: on finite values,
lexicographic by projection and then weight.  On non-finite components the
C comparator violates the strict-weak-ordering contract of `std::sort`
(behaviour undefined); the model resolves that unspecified case by ordering
`none` first, which coincides with the C comparator whenever all keys are
finite. -/
def pairLe (p q : RV × RV) : Bool :=
  match p.1, q.1 with
  | none, none => true
  | none, some _ => true
  | some _, none => false
  | some a, some c => decide (a < c) || (decide (a = c) && sndLe p.2 q.2)

/-- The reference pairs sorted by `std::sort` (line 227). -/
def sorted1Of (d1 d2 v : Mat) (s2 : ℝ) (c : ℕ) : List (RV × RV) :=
  (distance1Of d1 d2 v s2 c).mergeSort pairLe

/-- `target = prob2 * totalprob1` (line 230). -/
def targetOf (d1 d2 v : Mat) (s2 : ℝ) (c : ℕ) : RV :=
  rmul (prob2Of d2 v s2 c) (totalprob1Of d1 d2 v s2 c)

/-- The initial value of `ref_quan` (lines 231–234): `R_NaReal`, replaced by
the largest sorted projection when the reference batch is nonempty. -/
def refQuanDefault (d1 d2 v : Mat) (s2 : ℝ) (c : ℕ) : RV :=
  match (sorted1Of d1 d2 v s2 c).getLast? with
  | none => none
  | some p => p.1

/-- The cumulative walk of lines 236–242: weights are accumulated in sorted
order and the first projection whose running total reaches the target is
returned; if none does, the preset value survives. -/
def quanWalk : List (RV × RV) → RV → RV → RV → RV
  | [], _, _, dflt => dflt
  | p :: rest, target, cum, dflt =>
      let c := radd cum p.2
      if rle target c then p.1 else quanWalk rest target c dflt

/-- The matched quantile coordinate for an arbitrary target value. -/
def refQuanWith (d1 d2 v : Mat) (s2 : ℝ) (c : ℕ) (target : RV) : RV :=
  quanWalk (sorted1Of d1 d2 v s2 c) target (some 0) (refQuanDefault d1 d2 v s2 c)

/-- `ref_quan` as computed by the routine. -/
def refQuanOf (d1 d2 v : Mat) (s2 : ℝ) (c : ℕ) : RV :=
  refQuanWith d1 d2 v s2 c (targetOf d1 d2 v s2 c)

/-- Output element of query cell `c` (line 245):
`(ref_quan - curproj) / l2norm`. -/
def adjustCell (d1 d2 v : Mat) (s2 : ℝ) (c : ℕ) : RV :=
  rdiv (rsub (refQuanOf d1 d2 v s2 c) (curprojOf d2 v c)) (some (l2normOf v c))

/-- `adjust_shift_variance` of `mnn_correction.cpp` (lines 157–250): the
gene-count check and the cell-count check throw first, then σ² is
validated, then each query cell receives its scale factor. -/
def adjust_shift_variance (d1 d2 v : Mat) (s2 : ℝ) : Except Err (List RV) :=
  if d1.nrow ≠ d2.nrow ∨ d1.nrow ≠ v.ncol then .error .genesMismatch
  else if d2.ncol ≠ v.nrow then .error .cellsMismatch
  else
    match check_numeric_scalar s2 with
    | .error e => .error e
    | .ok _ => .ok ((List.range d2.ncol).map (fun c => adjustCell d1 d2 v s2 c))

/-- Size reached by the growable deque of `mnn_correction.cpp` after the
aggregation loop: one past the largest identifier seen. -/
def szOf (ps : List (ℤ × List ℝ)) : ℕ :=
  ps.foldl (fun m p => max m (p.1.toNat + 1)) 0

/-- The container accesses of `smooth_gaussian_kernel.cpp` that are keyed by
an anchor identifier: during aggregation, the `averages` and `number` slots
at each index entry; during smoothing, the expression-matrix column, the
`distances2` slot and the `averages` slot at each member of `mnncell`.  All
these containers are sized by the cell count `N`. -/
def anchorAccesses (vect : Mat) (index : List ℤ) : List ℕ :=
  idsOf (pairsOf vect index) ++ mnnListB vect index

/-- The gradient matrix with the row of query cell `c` multiplied by a
constant `k` (all other entries unchanged). -/
def scaleRow (v : Mat) (c : ℕ) (k : ℝ) : Mat :=
  ⟨v.nrow, v.ncol, fun i j => if i = c then k * v.entry i j else v.entry i j⟩

/-! ### Characterisation of the aggregation loops -/

theorem sumVecOf_length (n : ℕ) (ps : List (ℤ × List ℝ)) (d : ℕ) :
    (sumVecOf n ps d).length = n := by
  simp [sumVecOf]

theorem idsOf_append (ps : List (ℤ × List ℝ)) (p : ℤ × List ℝ) :
    idsOf (ps ++ [p]) = idsOf ps ++ [p.1.toNat] := by
  simp [idsOf]

theorem mem_idsOf {ps : List (ℤ × List ℝ)} {d : ℕ} :
    d ∈ idsOf ps ↔ ∃ p ∈ ps, p.1.toNat = d := by
  simp [idsOf]

theorem filter_eq_nil_of_not_mem_idsOf {ps : List (ℤ × List ℝ)} {d : ℕ}
    (h : d ∉ idsOf ps) : ps.filter (fun p => p.1.toNat = d) = [] := by
  rw [List.filter_eq_nil_iff]
  intro p hp
  simp only [decide_eq_true_eq]
  intro hpd
  exact h (mem_idsOf.mpr ⟨p, hp, hpd⟩)

theorem countOf_append (ps : List (ℤ × List ℝ)) (p : ℤ × List ℝ) (d : ℕ) :
    countOf (ps ++ [p]) d = countOf ps d + if p.1.toNat = d then 1 else 0 := by
  by_cases hd : p.1.toNat = d <;> simp [countOf, List.filter_append, hd]

theorem countOf_eq_zero {ps : List (ℤ × List ℝ)} {d : ℕ} (h : d ∉ idsOf ps) :
    countOf ps d = 0 := by
  simp [countOf, filter_eq_nil_of_not_mem_idsOf h]

theorem range_map_getD {n : ℕ} {l : List ℝ} (h : l.length = n) :
    (List.range n).map (fun g => l.getD g 0) = l := by
  apply List.ext_getElem
  · simp [h]
  · intro i hi hi'
    simp only [List.getElem_map, List.getElem_range]
    rw [List.getD_eq_getElem]

theorem zipWith_add_range_map {n : ℕ} (f : ℕ → ℝ) {l : List ℝ} (h : l.length = n) :
    List.zipWith (· + ·) ((List.range n).map f) l
      = (List.range n).map (fun g => f g + l.getD g 0) := by
  apply List.ext_getElem
  · simp [h]
  · intro i hi hi'
    have hi2 : i < l.length := by
      have := hi
      simp [h] at this ⊢
      omega
    simp only [List.getElem_zipWith, List.getElem_map, List.getElem_range]
    rw [List.getD_eq_getElem]

theorem sumVecOf_append_ne {n : ℕ} {ps : List (ℤ × List ℝ)} {p : ℤ × List ℝ} {d : ℕ}
    (hne : p.1.toNat ≠ d) : sumVecOf n (ps ++ [p]) d = sumVecOf n ps d := by
  simp [sumVecOf, List.filter_append, hne]

theorem sumVecOf_append_eq {n : ℕ} {ps : List (ℤ × List ℝ)} {p : ℤ × List ℝ} {d : ℕ}
    (heq : p.1.toNat = d) (hlen : p.2.length = n) :
    sumVecOf n (ps ++ [p]) d = List.zipWith (· + ·) (sumVecOf n ps d) p.2 := by
  simp only [sumVecOf]
  rw [zipWith_add_range_map
    (fun g => ((ps.filter (fun q => q.1.toNat = d)).map (fun q => q.2.getD g 0)).sum) hlen]
  congr 1
  funext g
  simp [List.filter_append, heq]

theorem sumVecOf_not_mem {n : ℕ} {ps : List (ℤ × List ℝ)} {d : ℕ}
    (h : d ∉ idsOf ps) : sumVecOf n ps d = (List.range n).map (fun _ => (0 : ℝ)) := by
  simp [sumVecOf, filter_eq_nil_of_not_mem_idsOf h]

/-- The fixed-size aggregation loop of `smooth_gaussian_kernel.cpp` computes
exactly: `mnncell` is the set of identifiers occurring in the index, every
present slot holds the elementwise sum of the rows sharing its identifier,
and every count is the number of such rows. -/
theorem aggB_spec (n : ℕ) (ps : List (ℤ × List ℝ)) (h : ∀ p ∈ ps, p.2.length = n) :
    (aggB ps).mnncell = (idsOf ps).toFinset ∧
    (∀ d, (aggB ps).averages d = if d ∈ idsOf ps then sumVecOf n ps d else []) ∧
    (∀ d, (aggB ps).number d = countOf ps d) := by
  induction ps using List.reverseRecOn with
  | nil =>
      refine ⟨by simp [aggB, idsOf], fun d => ?_, fun d => ?_⟩
      · simp [aggB, idsOf]
      · simp [aggB, countOf]
  | append_singleton ps p ih =>
      obtain ⟨h1, h2, h3⟩ := ih (fun q hq => h q (by simp [hq]))
      have hplen : p.2.length = n := h p (by simp)
      have hstep : aggB (ps ++ [p]) = aggStepB (aggB ps) p := by
        simp [aggB, List.foldl_append]
      rw [hstep]
      by_cases hmem : p.1.toNat ∈ idsOf ps
      · have hm : p.1.toNat ∈ (aggB ps).mnncell := by rw [h1]; simpa using hmem
        simp only [aggStepB, if_pos hm]
        refine ⟨?_, fun d => ?_, fun d => ?_⟩
        · rw [h1, idsOf_append]
          simp [List.toFinset_append]
          exact hmem
        · by_cases hd : d = p.1.toNat
          · subst hd
            rw [Function.update_same, h2, if_pos hmem, idsOf_append,
              if_pos (by simp), sumVecOf_append_eq rfl hplen]
          · rw [Function.update_noteq hd, h2, idsOf_append,
              sumVecOf_append_ne (fun hh => hd hh.symm)]
            have : d ∈ idsOf ps ++ [p.1.toNat] ↔ d ∈ idsOf ps := by
              simp [fun hh : d = p.1.toNat => hd hh]
            rw [if_congr this rfl rfl]
        · by_cases hd : d = p.1.toNat
          · subst hd
            rw [Function.update_same, h3, countOf_append, if_pos rfl]
          · rw [Function.update_noteq hd, h3, countOf_append,
              if_neg (fun hh => hd hh.symm)]
            simp
      · have hm : p.1.toNat ∉ (aggB ps).mnncell := by rw [h1]; simpa using hmem
        simp only [aggStepB, if_neg hm]
        refine ⟨?_, fun d => ?_, fun d => ?_⟩
        · rw [h1, idsOf_append]
          simp only [List.toFinset_append, List.toFinset_cons, List.toFinset_nil,
            insert_emptyc_eq]
          rw [Finset.union_comm, ← Finset.insert_eq]
        · by_cases hd : d = p.1.toNat
          · subst hd
            rw [Function.update_same, idsOf_append, if_pos (by simp)]
            rw [sumVecOf_append_eq rfl hplen, sumVecOf_not_mem hmem]
            rw [zipWith_add_range_map _ hplen]
            simpa using (range_map_getD hplen).symm
          · rw [Function.update_noteq hd, h2, idsOf_append,
              sumVecOf_append_ne (fun hh => hd hh.symm)]
            have : d ∈ idsOf ps ++ [p.1.toNat] ↔ d ∈ idsOf ps := by
              simp [fun hh : d = p.1.toNat => hd hh]
            rw [if_congr this rfl rfl]
        · by_cases hd : d = p.1.toNat
          · subst hd
            rw [Function.update_same, h3, countOf_append, if_pos rfl]
          · rw [Function.update_noteq hd, h3, countOf_append,
              if_neg (fun hh => hd hh.symm)]
            simp

theorem szOf_append (ps : List (ℤ × List ℝ)) (p : ℤ × List ℝ) :
    szOf (ps ++ [p]) = max (szOf ps) (p.1.toNat + 1) := by
  simp [szOf, List.foldl_append]

theorem lt_szOf_of_mem_ids {ps : List (ℤ × List ℝ)} {d : ℕ}
    (h : d ∈ idsOf ps) : d < szOf ps := by
  induction ps using List.reverseRecOn with
  | nil => simp [idsOf] at h
  | append_singleton ps p ih =>
      rw [idsOf_append] at h
      rw [szOf_append]
      rcases List.mem_append.mp h with h | h
      · exact lt_of_lt_of_le (ih h) (le_max_left _ _)
      · have : d = p.1.toNat := by simpa using h
        omega

/-- The deque-based aggregation loop of `mnn_correction.cpp` computes the
same `mnncell` set and the same per-identifier sums as the fixed-size loop;
its counts agree whenever the correction vectors are nonempty (with zero
features, the empty-slot test re-fires on every row and pins the count at 1,
which the division pass then applies to an empty vector). -/
theorem aggA_spec (n : ℕ) (ps : List (ℤ × List ℝ)) (h : ∀ p ∈ ps, p.2.length = n) :
    (aggA ps).sz = szOf ps ∧
    (aggA ps).mnncell = (idsOf ps).toFinset ∧
    (∀ d, (aggA ps).averages d = if d ∈ idsOf ps then sumVecOf n ps d else []) ∧
    (∀ d, (aggA ps).number d
      = if d ∈ idsOf ps then (if n = 0 then 1 else countOf ps d) else 0) := by
  induction ps using List.reverseRecOn with
  | nil =>
      refine ⟨by simp [aggA, szOf], by simp [aggA, idsOf], fun d => ?_, fun d => ?_⟩
      · simp [aggA, idsOf]
      · simp [aggA, idsOf]
  | append_singleton ps p ih =>
      obtain ⟨h0, h1, h2, h3⟩ := ih (fun q hq => h q (by simp [hq]))
      have hplen : p.2.length = n := h p (by simp)
      have hstep : aggA (ps ++ [p]) = aggStepA (aggA ps) p := by
        simp [aggA, List.foldl_append]
      rw [hstep]
      by_cases hmem : p.1.toNat ∈ idsOf ps
      · have hlt : p.1.toNat < szOf ps := lt_szOf_of_mem_ids hmem
        have hnle : ¬ (aggA ps).sz ≤ p.1.toNat := by rw [h0]; omega
        by_cases hn : n = 0
        · have hcond : (aggA ps).sz ≤ p.1.toNat ∨ ((aggA ps).averages p.1.toNat).length = 0 :=
            Or.inr (by rw [h2, if_pos hmem, sumVecOf_length, hn])
          simp only [aggStepA, if_pos hcond]
          refine ⟨?_, ?_, fun d => ?_, fun d => ?_⟩
          · rw [if_neg hnle, h0, szOf_append, max_eq_left (by omega)]
          · rw [h1, idsOf_append]
            simp only [List.toFinset_append, List.toFinset_cons, List.toFinset_nil,
              insert_emptyc_eq]
            rw [Finset.union_comm, ← Finset.insert_eq]
          · by_cases hd : d = p.1.toNat
            · subst hd
              rw [Function.update_same, idsOf_append, if_pos (by simp), hn]
              have : p.2 = [] := List.length_eq_zero.mp (by rw [hplen, hn])
              simp [sumVecOf, this]
            · rw [Function.update_noteq hd, h2, idsOf_append,
                sumVecOf_append_ne (fun hh => hd hh.symm)]
              have : d ∈ idsOf ps ++ [p.1.toNat] ↔ d ∈ idsOf ps := by
                simp [fun hh : d = p.1.toNat => hd hh]
              rw [if_congr this rfl rfl]
          · by_cases hd : d = p.1.toNat
            · subst hd
              rw [Function.update_same, idsOf_append, if_pos (by simp), if_pos hn]
            · rw [Function.update_noteq hd, h3, idsOf_append, countOf_append,
                if_neg (show ¬ p.1.toNat = d from fun hh => hd hh.symm)]
              have : d ∈ idsOf ps ++ [p.1.toNat] ↔ d ∈ idsOf ps := by
                simp [fun hh : d = p.1.toNat => hd hh]
              rw [if_congr this rfl rfl]
              simp
        · have hcond : ¬ ((aggA ps).sz ≤ p.1.toNat ∨ ((aggA ps).averages p.1.toNat).length = 0) := by
            rw [not_or]
            exact ⟨hnle, by rw [h2, if_pos hmem, sumVecOf_length]; exact hn⟩
          simp only [aggStepA, if_neg hcond]
          refine ⟨?_, ?_, fun d => ?_, fun d => ?_⟩
          · rw [h0, szOf_append, max_eq_left (by omega)]
          · rw [h1, idsOf_append]
            simp [List.toFinset_append]
            exact hmem
          · by_cases hd : d = p.1.toNat
            · subst hd
              rw [Function.update_same, h2, if_pos hmem, idsOf_append,
                if_pos (by simp), sumVecOf_append_eq rfl hplen]
            · rw [Function.update_noteq hd, h2, idsOf_append,
                sumVecOf_append_ne (fun hh => hd hh.symm)]
              have : d ∈ idsOf ps ++ [p.1.toNat] ↔ d ∈ idsOf ps := by
                simp [fun hh : d = p.1.toNat => hd hh]
              rw [if_congr this rfl rfl]
          · by_cases hd : d = p.1.toNat
            · subst hd
              rw [Function.update_same, h3, if_pos hmem, if_neg hn, idsOf_append,
                if_pos (by simp), if_neg hn, countOf_append, if_pos rfl]
            · rw [Function.update_noteq hd, h3, idsOf_append, countOf_append,
                if_neg (show ¬ p.1.toNat = d from fun hh => hd hh.symm)]
              have : d ∈ idsOf ps ++ [p.1.toNat] ↔ d ∈ idsOf ps := by
                simp [fun hh : d = p.1.toNat => hd hh]
              rw [if_congr this rfl rfl]
              simp
      · have hcond : (aggA ps).sz ≤ p.1.toNat ∨ ((aggA ps).averages p.1.toNat).length = 0 :=
          Or.inr (by rw [h2, if_neg hmem]; rfl)
        simp only [aggStepA, if_pos hcond]
        refine ⟨?_, ?_, fun d => ?_, fun d => ?_⟩
        · rw [h0, szOf_append]
          by_cases hle : szOf ps ≤ p.1.toNat
          · rw [if_pos hle, max_eq_right (by omega)]
          · rw [if_neg hle, max_eq_left (by omega)]
        · rw [h1, idsOf_append]
          simp only [List.toFinset_append, List.toFinset_cons, List.toFinset_nil,
            insert_emptyc_eq]
          rw [Finset.union_comm, ← Finset.insert_eq]
        · by_cases hd : d = p.1.toNat
          · subst hd
            rw [Function.update_same, idsOf_append, if_pos (by simp)]
            rw [sumVecOf_append_eq rfl hplen, sumVecOf_not_mem hmem]
            rw [zipWith_add_range_map _ hplen]
            simpa using (range_map_getD hplen).symm
          · rw [Function.update_noteq hd, h2, idsOf_append,
              sumVecOf_append_ne (fun hh => hd hh.symm)]
            have : d ∈ idsOf ps ++ [p.1.toNat] ↔ d ∈ idsOf ps := by
              simp [fun hh : d = p.1.toNat => hd hh]
            rw [if_congr this rfl rfl]
        · by_cases hd : d = p.1.toNat
          · subst hd
            rw [Function.update_same, idsOf_append, if_pos (by simp)]
            by_cases hn : n = 0
            · rw [if_pos hn]
            · rw [if_neg hn, countOf_append, if_pos rfl, countOf_eq_zero hmem]
          · rw [Function.update_noteq hd, h3, idsOf_append, countOf_append,
              if_neg (show ¬ p.1.toNat = d from fun hh => hd hh.symm)]
            have : d ∈ idsOf ps ++ [p.1.toNat] ↔ d ∈ idsOf ps := by
              simp [fun hh : d = p.1.toNat => hd hh]
            rw [if_congr this rfl rfl]
            simp

/-! ### Equivalence of the two smoothing implementations -/

theorem pairsOf_row_length (vect : Mat) (index : List ℤ) :
    ∀ p ∈ pairsOf vect index, p.2.length = vect.ncol := by
  intro p hp
  have h2 : p.2 ∈ (List.range vect.nrow).map vect.row := (List.of_mem_zip hp).2
  obtain ⟨i, -, hi⟩ := List.mem_map.mp h2
  rw [← hi]
  simp [Mat.row]

theorem idsOf_pairsOf {vect : Mat} {index : List ℤ} (h : index.length = vect.nrow) :
    idsOf (pairsOf vect index) = index.map Int.toNat := by
  unfold idsOf pairsOf
  have hz : (index.zip ((List.range vect.nrow).map vect.row)).map Prod.fst = index :=
    List.map_fst_zip _ _ (by simp [h])
  calc (index.zip ((List.range vect.nrow).map vect.row)).map (fun p => p.1.toNat)
      = ((index.zip ((List.range vect.nrow).map vect.row)).map Prod.fst).map Int.toNat := by
        rw [List.map_map]; rfl
    _ = index.map Int.toNat := by rw [hz]

theorem logadd_comm_form (d x : ℝ) :
    max x d + log1pexp (-|x - d|) = logspace_add d x := by
  unfold log1pexp logspace_add
  rw [max_comm, abs_sub_comm]

theorem density_fold_aux (ds : ℕ → ℝ) (xs : List ℕ) : ∀ d : ℝ,
    (xs.foldl
      (fun acc m =>
        match acc with
        | none => some (ds m)
        | some dd => some (max (ds m) dd + log1pexp (-|ds m - dd|)))
      (some d)).getD 0
    = (xs.foldl
        (fun acc m =>
          if acc.1 then (false, ds m) else (false, logspace_add acc.2 (ds m)))
        (false, d)).2 := by
  induction xs with
  | nil => intro d; rfl
  | cons y ys ih =>
      intro d
      simp only [List.foldl_cons, Bool.false_eq_true, if_false]
      rw [show (max (ds y) d + log1pexp (-|ds y - d|)) = logspace_add d (ds y) from
        logadd_comm_form d (ds y)]
      exact ih (logspace_add d (ds y))

/-- The hand-written log-sum-exp accumulation of `mnn_correction.cpp` and
the `R::logspace_add` accumulation of `smooth_gaussian_kernel.cpp` compute
the same density for every anchor set. -/
theorem densityA_eq_densityB (ds : ℕ → ℝ) (l : List ℕ) :
    densityA ds l = densityB ds l := by
  cases l with
  | nil => rfl
  | cons x xs =>
      unfold densityA densityB
      simp only [List.foldl_cons, if_pos rfl]
      exact density_fold_aux ds xs (ds x)

theorem finA_eq_finB (vect : Mat) (index : List ℤ) :
    finA vect index = finB vect index := by
  obtain ⟨-, ha1, ha2, ha3⟩ :=
    aggA_spec vect.ncol (pairsOf vect index) (pairsOf_row_length vect index)
  obtain ⟨hb1, hb2, hb3⟩ :=
    aggB_spec vect.ncol (pairsOf vect index) (pairsOf_row_length vect index)
  funext d
  unfold finA finB finalAvg aggOfA aggOfB
  rw [ha1, hb1, ha2 d, hb2 d, ha3 d, hb3 d]
  simp only [List.mem_toFinset]
  by_cases hd : d ∈ idsOf (pairsOf vect index)
  · simp only [hd, if_true]
    by_cases hn : vect.ncol = 0
    · simp [sumVecOf, hn]
    · rw [if_neg hn]
  · simp only [hd, if_false]

theorem mnnListA_eq_mnnListB (vect : Mat) (index : List ℤ) :
    mnnListA vect index = mnnListB vect index := by
  obtain ⟨-, ha1, -, -⟩ :=
    aggA_spec vect.ncol (pairsOf vect index) (pairsOf_row_length vect index)
  obtain ⟨hb1, -, -⟩ :=
    aggB_spec vect.ncol (pairsOf vect index) (pairsOf_row_length vect index)
  unfold mnnListA mnnListB aggOfA aggOfB
  rw [ha1, hb1]

theorem multA_eq_multB (vect : Mat) (index : List ℤ) (data : Mat) (s2 : ℝ) :
    multA vect index data s2 = multB vect index data s2 := by
  funext a s
  simp only [multA, multB]
  rw [mnnListA_eq_mnnListB, densityA_eq_densityB]

theorem stateA_eq_stateB (vect : Mat) (index : List ℤ) (data : Mat) (s2 : ℝ) :
    stateA vect index data s2 = stateB vect index data s2 := by
  unfold stateA stateB
  rw [finA_eq_finB, mnnListA_eq_mnnListB, multA_eq_multB]

/-! ### Claim theorems: smoothing entry points -/

/-- C2: the two implementations of `smooth_gaussian_kernel` — the one that
computes all squared distances and then divides them by −σ² in a separate
pass (`mnn_correction.cpp`) and the one that divides inline per sample
(`smooth_gaussian_kernel.cpp`) — return the same output matrix for every
input on which both are defined (anchor identifiers nonnegative and within
the cell count, so that neither variant touches its containers out of
bounds). -/
theorem claim_smooth_variants_equal (vect : Mat) (index : List ℤ) (data : Mat) (s2 : ℝ)
    (hb : ∀ i ∈ index, 0 ≤ i ∧ i.toNat < data.ncol) :
    smooth_gaussian_kernel_A vect index data s2
      = smooth_gaussian_kernel_B vect index data s2 := by
  unfold smooth_gaussian_kernel_A smooth_gaussian_kernel_B
  rw [stateA_eq_stateB]

theorem claim_smooth_variants_equal_witness :
    smooth_gaussian_kernel_A ⟨2, 1, fun i _ => (i : ℝ)⟩ [0, 1] ⟨1, 2, fun _ j => (j : ℝ)⟩ 1
      = smooth_gaussian_kernel_B ⟨2, 1, fun i _ => (i : ℝ)⟩ [0, 1] ⟨1, 2, fun _ j => (j : ℝ)⟩ 1 :=
  claim_smooth_variants_equal _ _ _ _ (by decide)

/-- C4: whenever the supplied σ² is ≤ 0 and the dimension checks pass, all
three entry points fail with an InvalidArgument error and produce no output.
The σ² validation lives in `check_numeric_scalar` (repository code outside
the provided sources), modelled here from the spec's stated policy. -/
theorem claim_sigma_nonpositive_rejected (vect : Mat) (index : List ℤ) (data : Mat)
    (d1 d2 v : Mat) (s2 : ℝ) (hs : s2 ≤ 0) :
    (index.length = vect.nrow →
      smooth_gaussian_kernel_A vect index data s2 = .error .invalidArg) ∧
    (index.length = vect.nrow →
      smooth_gaussian_kernel_B vect index data s2 = .error .invalidArg) ∧
    (d1.nrow = d2.nrow → d1.nrow = v.ncol → d2.ncol = v.nrow →
      adjust_shift_variance d1 d2 v s2 = .error .invalidArg) := by
  refine ⟨fun h => ?_, fun h => ?_, fun h1 h2 h3 => ?_⟩
  · simp [smooth_gaussian_kernel_A, check_numeric_scalar, h, hs]
  · simp [smooth_gaussian_kernel_B, check_numeric_scalar, h, hs]
  · simp [adjust_shift_variance, check_numeric_scalar, h1, h2, h3, hs, h1.symm.trans h2]

theorem claim_sigma_nonpositive_rejected_witness :
    smooth_gaussian_kernel_B ⟨0, 1, fun _ _ => 0⟩ [] ⟨1, 1, fun _ _ => 0⟩ 0
      = .error .invalidArg :=
  (claim_sigma_nonpositive_rejected ⟨0, 1, fun _ _ => 0⟩ [] ⟨1, 1, fun _ _ => 0⟩
    ⟨1, 1, fun _ _ => 0⟩ ⟨1, 1, fun _ _ => 0⟩ ⟨1, 1, fun _ _ => 0⟩ 0 le_rfl).2.1 rfl

/-- C5: `adjust_shift_variance` fails with a DimensionMismatch error when
the gene counts of the reference matrix, query matrix and gradient-vector
length disagree, or when the gradient row count disagrees with the query
sample count; the checks run before any computation, so on failure the call
returns the error and nothing else. -/
theorem claim_adjust_dimension_checks (d1 d2 v : Mat) (s2 : ℝ) :
    (d1.nrow ≠ d2.nrow ∨ d1.nrow ≠ v.ncol →
      adjust_shift_variance d1 d2 v s2 = .error .genesMismatch) ∧
    (d1.nrow = d2.nrow → d1.nrow = v.ncol → d2.ncol ≠ v.nrow →
      adjust_shift_variance d1 d2 v s2 = .error .cellsMismatch) := by
  constructor
  · intro h
    unfold adjust_shift_variance
    rw [if_pos h]
  · intro h1 h2 h3
    unfold adjust_shift_variance
    rw [if_neg (by rw [not_or]; exact ⟨by simp [h1], by simp [h2]⟩), if_pos h3]

theorem claim_adjust_dimension_checks_witness :
    adjust_shift_variance ⟨1, 1, fun _ _ => 0⟩ ⟨2, 1, fun _ _ => 0⟩ ⟨1, 1, fun _ _ => 0⟩ 1
      = .error .genesMismatch :=
  (claim_adjust_dimension_checks _ _ _ _).1 (Or.inl (by decide))

/-- C10: `smooth_gaussian_kernel` raises an error only for the index-length
mismatch (and the σ² validation); no code path inspects the anchor-index
values, and when every entry lies in [0, N) for N the cell count, every
identifier-keyed container access of the routine is in bounds. -/
theorem claim_anchor_index_bounds (vect : Mat) (index : List ℤ) (data : Mat) (s2 : ℝ) :
    ((∃ e, smooth_gaussian_kernel_B vect index data s2 = .error e) ↔
      (index.length ≠ vect.nrow ∨ s2 ≤ 0)) ∧
    ((∀ i ∈ index, 0 ≤ i ∧ i.toNat < data.ncol) →
      ∀ d ∈ anchorAccesses vect index, d < data.ncol) := by
  constructor
  · constructor
    · rintro ⟨e, he⟩
      by_contra hcon
      rw [not_or] at hcon
      obtain ⟨hlen, hsig⟩ := hcon
      unfold smooth_gaussian_kernel_B check_numeric_scalar at he
      rw [if_neg hlen, if_neg hsig] at he
      simp at he
    · intro h
      by_cases hlen : index.length ≠ vect.nrow
      · exact ⟨.pairsMismatch, by unfold smooth_gaussian_kernel_B; rw [if_pos hlen]⟩
      · have hsig : s2 ≤ 0 := by
          rcases h with h | h
          · exact absurd h hlen
          · exact h
        exact ⟨.invalidArg, by
          unfold smooth_gaussian_kernel_B check_numeric_scalar
          rw [if_neg hlen, if_pos hsig]⟩
  · intro hpre d hd
    rcases List.mem_append.mp hd with hd | hd
    · obtain ⟨p, hp, hpd⟩ := mem_idsOf.mp hd
      rw [← hpd]
      exact (hpre p.1 (List.of_mem_zip hp).1).2
    · unfold mnnListB aggOfB at hd
      obtain ⟨hb1, -, -⟩ :=
        aggB_spec vect.ncol (pairsOf vect index) (pairsOf_row_length vect index)
      rw [hb1] at hd
      have hd3 := List.mem_toFinset.mp ((Finset.mem_sort (α := ℕ) (· ≤ ·)).mp hd)
      obtain ⟨p, hp, hpd⟩ := mem_idsOf.mp hd3
      rw [← hpd]
      exact (hpre p.1 (List.of_mem_zip hp).1).2

theorem claim_anchor_index_bounds_witness :
    (anchorAccesses ⟨2, 1, fun _ _ => 0⟩ [0, 1]).all (fun d => decide (d < 2)) = true := by
  have h := (claim_anchor_index_bounds ⟨2, 1, fun _ _ => 0⟩ [0, 1] ⟨1, 2, fun _ _ => 0⟩ 1).2
    (by decide)
  exact List.all_eq_true.mpr (fun d hd => decide_eq_true (h d hd))

/-- C3 counterexample: the claim asserts that a zero total accumulated
weight makes the call raise a FATAL numeric-degeneracy error.  With no
anchor pairs, `mnncell` is empty, the single cell's total weight is exactly
0, and the call nevertheless returns `.ok` with the column divided by the
zero total — no error exists in the code for this condition. -/
theorem claim_zero_weight_counterexample :
    totalprobB ⟨0, 1, fun _ _ => 0⟩ [] ⟨1, 1, fun _ _ => 5⟩ 1 = [0] ∧
    smooth_gaussian_kernel_B ⟨0, 1, fun _ _ => 0⟩ [] ⟨1, 1, fun _ _ => 5⟩ 1 = .ok [[0]] := by
  constructor
  · simp [totalprobB, stateB, smoothState, mnnListB, aggOfB, aggB, pairsOf]
  · have h10 : ¬ (1 : ℝ) ≤ 0 := by norm_num
    simp [smooth_gaussian_kernel_B, check_numeric_scalar, normalizeOut, stateB, smoothState,
      mnnListB, aggOfB, aggB, pairsOf, h10]

/-- C3 amended: the normalisation step of both smoothing implementations
divides by the per-cell total weight unconditionally; a zero total is not
detected, no error is raised, and the call completes with `.ok` (in IEEE
arithmetic the affected column is NaN; in this exact model, division by
zero).  The only errors either implementation can raise are the dimension
check and the σ² validation. -/
theorem claim_zero_weight_no_guard (vect : Mat) (index : List ℤ) (data : Mat) (s2 : ℝ)
    (h : index.length = vect.nrow) (hs : 0 < s2) (s : ℕ)
    (hz : (totalprobB vect index data s2).getD s 0 = 0) :
    smooth_gaussian_kernel_B vect index data s2
      = .ok (normalizeOut (stateB vect index data s2)) ∧
    smooth_gaussian_kernel_A vect index data s2
      = .ok (normalizeOut (stateA vect index data s2)) := by
  have hs' : ¬ s2 ≤ 0 := not_le.mpr hs
  constructor
  · simp [smooth_gaussian_kernel_B, check_numeric_scalar, h, hs']
  · simp [smooth_gaussian_kernel_A, check_numeric_scalar, h, hs']

theorem claim_zero_weight_no_guard_witness :
    smooth_gaussian_kernel_B ⟨0, 1, fun _ _ => 0⟩ [] ⟨1, 1, fun _ _ => 5⟩ 1
      = .ok (normalizeOut (stateB ⟨0, 1, fun _ _ => 0⟩ [] ⟨1, 1, fun _ _ => 5⟩ 1)) :=
  (claim_zero_weight_no_guard ⟨0, 1, fun _ _ => 0⟩ [] ⟨1, 1, fun _ _ => 5⟩ 1 rfl
    one_pos 0
    (by simp [totalprobB, stateB, smoothState, mnnListB, aggOfB, aggB, pairsOf])).1

/-- C1: for every call to `smooth_gaussian_kernel` whose anchor index has
the same length as the number of correction-vector rows (with identifiers
that are valid cell indices), the average map built before smoothing
contains exactly the distinct identifiers occurring in the index; each
present slot holds the arithmetic mean of the correction-vector rows
sharing that identifier, and — for a nonzero feature count — the recorded
count is the number of such rows.  Proved for the aggregation phases of
both implementations. -/
theorem claim_average_map (vect : Mat) (index : List ℤ) (data : Mat)
    (h : index.length = vect.nrow)
    (hb : ∀ i ∈ index, 0 ≤ i ∧ i.toNat < data.ncol) :
    (aggOfB vect index).mnncell = (index.map Int.toNat).toFinset ∧
    (aggOfA vect index).mnncell = (index.map Int.toNat).toFinset ∧
    ∀ d ∈ (index.map Int.toNat).toFinset,
      finB vect index d = meanVecOf vect.ncol (pairsOf vect index) d ∧
      finA vect index d = meanVecOf vect.ncol (pairsOf vect index) d ∧
      (0 < vect.ncol → (aggOfB vect index).number d = countOf (pairsOf vect index) d) := by
  obtain ⟨hb1, hb2, hb3⟩ :=
    aggB_spec vect.ncol (pairsOf vect index) (pairsOf_row_length vect index)
  obtain ⟨-, ha1, ha2, ha3⟩ :=
    aggA_spec vect.ncol (pairsOf vect index) (pairsOf_row_length vect index)
  have hids := idsOf_pairsOf h
  refine ⟨?_, ?_, fun d hd => ?_⟩
  · unfold aggOfB
    rw [hb1, hids]
  · unfold aggOfA
    rw [ha1, hids]
  · have hdl : d ∈ idsOf (pairsOf vect index) := by
      rw [hids]
      exact List.mem_toFinset.mp hd
    refine ⟨?_, ?_, fun hn => ?_⟩
    · unfold finB finalAvg aggOfB
      rw [hb1, hb2 d, hb3 d, if_pos (List.mem_toFinset.mpr hdl), if_pos hdl]
      rfl
    · unfold finA finalAvg aggOfA
      rw [ha1, ha2 d, ha3 d, if_pos (List.mem_toFinset.mpr hdl), if_pos hdl, if_pos hdl]
      by_cases hc : vect.ncol = 0
      · simp [meanVecOf, sumVecOf, hc]
      · rw [if_neg hc]
        rfl
    · unfold aggOfB
      rw [hb3 d]

theorem claim_average_map_witness :
    finB ⟨3, 2, fun i _ => if i = 0 then 1 else if i = 1 then 3 else 10⟩ [0, 0, 1] 0
        = [2, 2] ∧
    finB ⟨3, 2, fun i _ => if i = 0 then 1 else if i = 1 then 3 else 10⟩ [0, 0, 1] 1
        = [10, 10] ∧
    (aggOfB ⟨3, 2, fun i _ => if i = 0 then 1 else if i = 1 then 3 else 10⟩ [0, 0, 1]).number 0
        = 2 ∧
    (aggOfB ⟨3, 2, fun i _ => if i = 0 then 1 else if i = 1 then 3 else 10⟩ [0, 0, 1]).number 1
        = 1 ∧
    (aggOfB ⟨3, 2, fun i _ => if i = 0 then 1 else if i = 1 then 3 else 10⟩ [0, 0, 1]).mnncell
        = {0, 1} := by
  have h := claim_average_map
    ⟨3, 2, fun i _ => if i = 0 then 1 else if i = 1 then 3 else 10⟩ [0, 0, 1]
    ⟨1, 2, fun _ _ => 0⟩ rfl (by decide)
  obtain ⟨hm, -, hv⟩ := h
  have h0 := hv 0 (by decide)
  have h1 := hv 1 (by decide)
  have hps : pairsOf ⟨3, 2, fun i _ => if i = 0 then 1 else if i = 1 then 3 else 10⟩ [0, 0, 1]
      = [((0 : ℤ), [(1 : ℝ), 1]), ((0 : ℤ), [(3 : ℝ), 3]), ((1 : ℤ), [(10 : ℝ), 10])] := by
    norm_num [pairsOf, Mat.row, List.range_succ]
  refine ⟨?_, ?_, ?_, ?_, ?_⟩
  · rw [h0.1, hps]
    norm_num [meanVecOf, sumVecOf, countOf, List.range_succ]
  · rw [h1.1, hps]
    norm_num [meanVecOf, sumVecOf, countOf, List.range_succ]
  · rw [h0.2.2 (by norm_num), hps]
    norm_num [countOf]
  · rw [h1.2.2 (by norm_num), hps]
    norm_num [countOf]
  · rw [hm]
    decide

/-! ### The single-anchor degeneracy -/

theorem zipWith_replicate_left {α β γ : Type _} (f : α → β → γ) {n : ℕ} (x : α) {l : List β}
    (h : l.length = n) : List.zipWith f (List.replicate n x) l = l.map (f x) := by
  induction l generalizing n with
  | nil => subst h; rfl
  | cons y ys ih =>
      cases n with
      | zero => simp at h
      | succ m =>
          simp only [List.replicate_succ, List.zipWith_cons_cons, List.map_cons]
          rw [ih (by simpa using h)]

/-- With a single anchor, the shared accumulation-and-normalisation loop
returns that anchor's correction vector for every cell: each cell receives
one weight, which cancels in the final division. -/
theorem pipe_single (fin : ℕ → List ℝ) (mult : ℕ → ℕ → ℝ) (ngenes ncells : ℕ) (a : ℕ)
    (hlen : (fin a).length = ngenes) (hm : ∀ s, mult a s ≠ 0) :
    normalizeOut (smoothState fin [a] mult ngenes ncells)
      = List.replicate ncells (fin a) := by
  unfold smoothState normalizeOut
  simp only [List.foldl_cons, List.foldl_nil]
  have hms : ((List.range ncells).map (mult a)).length = ncells := by simp
  rw [zipWith_replicate_left _ _ hms, zipWith_replicate_left _ _ hms,
    List.zipWith_map_left, List.zipWith_map_right, List.zipWith_same]
  have hpt : ∀ m ∈ (List.range ncells).map (mult a),
      (List.zipWith (fun x c => x + c * m) (List.replicate ngenes 0) (fin a)).map
          (fun v => v / (0 + m))
        = fin a := by
    intro m hmm
    obtain ⟨s, -, rfl⟩ := List.mem_map.mp hmm
    rw [zipWith_replicate_left _ _ hlen, List.map_map]
    conv_rhs => rw [← List.map_id (fin a)]
    apply List.map_congr_left
    intro c _
    simp only [Function.comp_apply, zero_add, id_eq]
    exact mul_div_cancel_right₀ c (hm s)
  rw [List.map_congr_left hpt, List.map_const', hms]

theorem mnnListB_singleton {vect : Mat} {index : List ℤ} {a : ℕ}
    (h : index.length = vect.nrow)
    (hone : (index.map Int.toNat).toFinset = {a}) : mnnListB vect index = [a] := by
  obtain ⟨hb1, -, -⟩ :=
    aggB_spec vect.ncol (pairsOf vect index) (pairsOf_row_length vect index)
  unfold mnnListB aggOfB
  rw [hb1, idsOf_pairsOf h, hone]
  exact Finset.sort_singleton _ a

theorem mnnListA_singleton {vect : Mat} {index : List ℤ} {a : ℕ}
    (h : index.length = vect.nrow)
    (hone : (index.map Int.toNat).toFinset = {a}) : mnnListA vect index = [a] := by
  rw [mnnListA_eq_mnnListB]
  exact mnnListB_singleton h hone

theorem finB_length_of_mem {vect : Mat} {index : List ℤ} (a : ℕ)
    (ha : a ∈ idsOf (pairsOf vect index)) :
    (finB vect index a).length = vect.ncol := by
  obtain ⟨hb1, hb2, -⟩ :=
    aggB_spec vect.ncol (pairsOf vect index) (pairsOf_row_length vect index)
  unfold finB finalAvg aggOfB
  rw [hb1, if_pos (List.mem_toFinset.mpr ha), hb2 a, if_pos ha]
  simp [sumVecOf]

theorem finA_length_of_mem {vect : Mat} {index : List ℤ} (a : ℕ)
    (ha : a ∈ idsOf (pairsOf vect index)) :
    (finA vect index a).length = vect.ncol := by
  rw [finA_eq_finB]
  exact finB_length_of_mem a ha

/-- C8: for every input whose average map has exactly one anchor entry,
every column of the output field equals that anchor's mean correction
vector — the per-sample weight cancels to 1 after normalisation.  Proved
for both implementations. -/
theorem claim_single_anchor (vect : Mat) (index : List ℤ) (data : Mat) (s2 : ℝ)
    (h : index.length = vect.nrow) (hs : 0 < s2) (a : ℕ)
    (hone : (index.map Int.toNat).toFinset = {a})
    (hb : ∀ i ∈ index, 0 ≤ i ∧ i.toNat < data.ncol) :
    smooth_gaussian_kernel_B vect index data s2
      = .ok (List.replicate data.ncol (finB vect index a)) ∧
    smooth_gaussian_kernel_A vect index data s2
      = .ok (List.replicate data.ncol (finA vect index a)) := by
  have hs' : ¬ s2 ≤ 0 := not_le.mpr hs
  have hmem : a ∈ idsOf (pairsOf vect index) := by
    rw [idsOf_pairsOf h]
    have hone' : a ∈ ({a} : Finset ℕ) := Finset.mem_singleton_self a
    rw [← hone] at hone'
    exact List.mem_toFinset.mp hone'
  constructor
  · unfold smooth_gaussian_kernel_B check_numeric_scalar
    rw [if_neg (by simp [h]), if_neg hs']
    show Except.ok _ = _
    congr 1
    unfold stateB
    rw [mnnListB_singleton h hone]
    exact pipe_single _ _ _ _ _ (finB_length_of_mem a hmem)
      (fun s => by simp only [multB]; exact Real.exp_ne_zero _)
  · unfold smooth_gaussian_kernel_A check_numeric_scalar
    rw [if_neg (by simp [h]), if_neg hs']
    show Except.ok _ = _
    congr 1
    unfold stateA
    rw [mnnListA_singleton h hone]
    exact pipe_single _ _ _ _ _ (finA_length_of_mem a hmem)
      (fun s => by simp only [multA]; exact Real.exp_ne_zero _)

theorem claim_single_anchor_witness :
    smooth_gaussian_kernel_B ⟨1, 1, fun _ _ => 7⟩ [0] ⟨1, 2, fun _ j => (j : ℝ)⟩ 1
      = .ok (List.replicate 2 (finB ⟨1, 1, fun _ _ => 7⟩ [0] 0)) :=
  (claim_single_anchor ⟨1, 1, fun _ _ => 7⟩ [0] ⟨1, 2, fun _ j => (j : ℝ)⟩ 1 rfl one_pos 0
    (by decide) (by decide)).1

/-! ### Variance adjustment: congruence and degeneracy lemmas -/

theorem rdiv_zero_right (x : RV) : rdiv x (some 0) = none := by
  cases x <;> simp [rdiv]

theorem Mat.row_congr {v w : Mat} {i : ℕ} (hn : w.ncol = v.ncol)
    (he : ∀ j, w.entry i j = v.entry i j) : w.row i = v.row i := by
  unfold Mat.row
  rw [hn]
  exact List.map_congr_left (fun j _ => he j)

theorem l2normOf_congr {v w : Mat} {c : ℕ} (h : v.row c = w.row c) :
    l2normOf v c = l2normOf w c := by
  unfold l2normOf
  rw [h]

theorem unitGradOf_congr {v w : Mat} {c : ℕ} (h : v.row c = w.row c) :
    unitGradOf v c = unitGradOf w c := by
  unfold unitGradOf
  rw [l2normOf_congr h, h]

/-- Everything the routine derives for query cell `c` past the gradient
normalisation depends on the gradient matrix only through the unit
gradient. -/
theorem adjust_pieces_congr (d1 d2 : Mat) {v w : Mat} (s2 : ℝ) (c : ℕ)
    (hu : unitGradOf v c = unitGradOf w c) :
    curprojOf d2 v c = curprojOf d2 w c ∧
    prob2Of d2 v s2 c = prob2Of d2 w s2 c ∧
    distance1Of d1 d2 v s2 c = distance1Of d1 d2 w s2 c ∧
    sorted1Of d1 d2 v s2 c = sorted1Of d1 d2 w s2 c ∧
    totalprob1Of d1 d2 v s2 c = totalprob1Of d1 d2 w s2 c ∧
    targetOf d1 d2 v s2 c = targetOf d1 d2 w s2 c ∧
    refQuanDefault d1 d2 v s2 c = refQuanDefault d1 d2 w s2 c ∧
    refQuanOf d1 d2 v s2 c = refQuanOf d1 d2 w s2 c := by
  have hcp : curprojOf d2 v c = curprojOf d2 w c := by
    unfold curprojOf
    rw [hu]
  have hp2 : prob2Of d2 v s2 c = prob2Of d2 w s2 c := by
    unfold prob2Of
    rw [hcp, hu]
  have hd1 : distance1Of d1 d2 v s2 c = distance1Of d1 d2 w s2 c := by
    unfold distance1Of
    rw [hu]
  have hso : sorted1Of d1 d2 v s2 c = sorted1Of d1 d2 w s2 c := by
    unfold sorted1Of
    rw [hd1]
  have ht1 : totalprob1Of d1 d2 v s2 c = totalprob1Of d1 d2 w s2 c := by
    unfold totalprob1Of
    rw [hd1]
  have htg : targetOf d1 d2 v s2 c = targetOf d1 d2 w s2 c := by
    unfold targetOf
    rw [hp2, ht1]
  have hdf : refQuanDefault d1 d2 v s2 c = refQuanDefault d1 d2 w s2 c := by
    unfold refQuanDefault
    rw [hso]
  have hrq : refQuanOf d1 d2 v s2 c = refQuanOf d1 d2 w s2 c := by
    unfold refQuanOf refQuanWith
    rw [hso, htg, hdf]
  exact ⟨hcp, hp2, hd1, hso, ht1, htg, hdf, hrq⟩

theorem adjustCell_congr (d1 d2 : Mat) {v w : Mat} (s2 : ℝ) (c : ℕ)
    (hu : unitGradOf v c = unitGradOf w c) (hl : l2normOf v c = l2normOf w c) :
    adjustCell d1 d2 v s2 c = adjustCell d1 d2 w s2 c := by
  obtain ⟨hcp, -, -, -, -, -, -, hrq⟩ := adjust_pieces_congr d1 d2 s2 c hu
  unfold adjustCell
  rw [hcp, hrq, hl]

/-- C7: a query cell whose gradient row has zero ℓ2 norm does not abort the
call: the call still returns its per-cell map, the affected output element
is the non-finite sentinel (`none`, the division by the zero norm), and the
output of every other query cell is unaffected by that row. -/
theorem claim_zero_norm_gradient (d1 d2 v : Mat) (s2 : ℝ) (c : ℕ)
    (hg : d1.nrow = d2.nrow) (hgv : d1.nrow = v.ncol) (hc : d2.ncol = v.nrow)
    (hs : 0 < s2) (hz : l2normOf v c = 0) :
    adjust_shift_variance d1 d2 v s2
      = .ok ((List.range d2.ncol).map (fun i => adjustCell d1 d2 v s2 i)) ∧
    adjustCell d1 d2 v s2 c = none ∧
    (∀ w : Mat, w.ncol = v.ncol → (∀ i, i ≠ c → ∀ j, w.entry i j = v.entry i j) →
      ∀ i, i ≠ c → adjustCell d1 d2 w s2 i = adjustCell d1 d2 v s2 i) := by
  refine ⟨?_, ?_, ?_⟩
  · unfold adjust_shift_variance check_numeric_scalar
    rw [if_neg (by rw [not_or]; exact ⟨by simp [hg], by simp [hgv]⟩),
      if_neg (by simp [hc]), if_neg (not_le.mpr hs)]
  · unfold adjustCell
    rw [hz]
    exact rdiv_zero_right _
  · intro w hw he i hic
    have hrow : w.row i = v.row i := Mat.row_congr hw (fun j => he i hic j)
    exact adjustCell_congr d1 d2 s2 i (unitGradOf_congr hrow) (l2normOf_congr hrow)

theorem claim_zero_norm_gradient_witness :
    adjustCell ⟨1, 1, fun _ _ => 5⟩ ⟨1, 1, fun _ _ => 5⟩ ⟨1, 1, fun _ _ => 0⟩ 1 0 = none :=
  (claim_zero_norm_gradient ⟨1, 1, fun _ _ => 5⟩ ⟨1, 1, fun _ _ => 5⟩ ⟨1, 1, fun _ _ => 0⟩
    1 0 rfl rfl rfl one_pos
    (by norm_num [l2normOf, Mat.row, List.range_succ, Real.sqrt_zero])).2.1

theorem foldl_add_sq (l : List ℝ) (a : ℝ) :
    l.foldl (fun acc g => acc + g * g) a = a + (l.map (fun g => g * g)).sum := by
  induction l generalizing a with
  | nil => simp
  | cons x xs ih =>
      simp only [List.foldl_cons, List.map_cons, List.sum_cons, ih]
      ring

theorem scaleRow_row_self (v : Mat) (c : ℕ) (k : ℝ) :
    (scaleRow v c k).row c = (v.row c).map (fun g => k * g) := by
  unfold Mat.row scaleRow
  simp [List.map_map]

theorem scaleRow_row_other (v : Mat) (c : ℕ) (k : ℝ) {i : ℕ} (h : i ≠ c) :
    (scaleRow v c k).row i = v.row i := by
  unfold Mat.row scaleRow
  simp [h]

theorem l2normOf_scaleRow (v : Mat) (c : ℕ) {k : ℝ} (hk : 0 < k) :
    l2normOf (scaleRow v c k) c = k * l2normOf v c := by
  unfold l2normOf
  rw [scaleRow_row_self, foldl_add_sq, foldl_add_sq, zero_add, zero_add, List.map_map]
  have hsq : ((v.row c).map ((fun g => g * g) ∘ fun g => k * g)).sum
      = k ^ 2 * ((v.row c).map (fun g => g * g)).sum := by
    rw [← List.sum_map_mul_left]
    apply congrArg
    apply List.map_congr_left
    intro g _
    simp [Function.comp]
    ring
  rw [hsq, Real.sqrt_mul (sq_nonneg k), Real.sqrt_sq_eq_abs, abs_of_pos hk]

theorem unitGradOf_scaleRow (v : Mat) (c : ℕ) {k : ℝ} (hk : 0 < k) :
    unitGradOf (scaleRow v c k) c = unitGradOf v c := by
  unfold unitGradOf
  rw [scaleRow_row_self, l2normOf_scaleRow v c hk, List.map_map]
  apply List.map_congr_left
  intro g _
  simp only [Function.comp_apply]
  by_cases hL : l2normOf v c = 0
  · simp [rdiv, hL]
  · have hkL : k * l2normOf v c ≠ 0 := mul_ne_zero (ne_of_gt hk) hL
    simp only [rdiv, if_neg hL, if_neg hkL]
    rw [mul_div_mul_left g (l2normOf v c) (ne_of_gt hk)]

/-- C9: multiplying the gradient row of query cell `c` by a positive
constant `k` multiplies the output scale factor of cell `c` by `1/k`
(non-finite sentinels stay non-finite) while leaving `curproj`, `ref_quan`
and every other cell's output unchanged. -/
theorem claim_gradient_scale_invariance (d1 d2 v : Mat) (s2 : ℝ) (c : ℕ) {k : ℝ}
    (hk : 0 < k) :
    curprojOf d2 (scaleRow v c k) c = curprojOf d2 v c ∧
    refQuanOf d1 d2 (scaleRow v c k) s2 c = refQuanOf d1 d2 v s2 c ∧
    adjustCell d1 d2 (scaleRow v c k) s2 c
      = Option.map (fun x => x / k) (adjustCell d1 d2 v s2 c) ∧
    (∀ i, i ≠ c → adjustCell d1 d2 (scaleRow v c k) s2 i = adjustCell d1 d2 v s2 i) := by
  have hu := unitGradOf_scaleRow v c hk
  obtain ⟨hcp, -, -, -, -, -, -, hrq⟩ := adjust_pieces_congr d1 d2 (v := scaleRow v c k) s2 c hu
  refine ⟨hcp, hrq, ?_, ?_⟩
  · unfold adjustCell
    rw [hcp, hrq, l2normOf_scaleRow v c hk]
    cases hX : rsub (refQuanOf d1 d2 v s2 c) (curprojOf d2 v c) with
    | none => simp [rdiv]
    | some x =>
        by_cases hL : l2normOf v c = 0
        · simp [rdiv, hL]
        · have hkL : k * l2normOf v c ≠ 0 := mul_ne_zero (ne_of_gt hk) hL
          simp only [rdiv, if_neg hL, if_neg hkL, Option.map_some']
          rw [div_div, mul_comm]
  · intro i hic
    have hrow : (scaleRow v c k).row i = v.row i := scaleRow_row_other v c k hic
    exact adjustCell_congr d1 d2 s2 i (unitGradOf_congr hrow) (l2normOf_congr hrow)

theorem claim_gradient_scale_invariance_witness :
    adjustCell ⟨1, 1, fun _ _ => 5⟩ ⟨1, 1, fun _ _ => 5⟩
        (scaleRow ⟨1, 1, fun _ _ => 1⟩ 0 2) 1 0
      = Option.map (fun x => x / 2)
        (adjustCell ⟨1, 1, fun _ _ => 5⟩ ⟨1, 1, fun _ _ => 5⟩ ⟨1, 1, fun _ _ => 1⟩ 1 0) :=
  (claim_gradient_scale_invariance ⟨1, 1, fun _ _ => 5⟩ ⟨1, 1, fun _ _ => 5⟩
    ⟨1, 1, fun _ _ => 1⟩ 1 0 (by norm_num)).2.2.1

/-! ### Quantile matching: edge cases of the walk -/

theorem sndLe_total (x y : RV) : sndLe x y = true ∨ sndLe y x = true := by
  cases x with
  | none => left; rfl
  | some b =>
      cases y with
      | none => right; rfl
      | some d =>
          rcases le_total b d with h | h
          · left; simpa [sndLe] using h
          · right; simpa [sndLe] using h

theorem sndLe_trans {x y z : RV} (h1 : sndLe x y = true) (h2 : sndLe y z = true) :
    sndLe x z = true := by
  cases x with
  | none => rfl
  | some b =>
      cases y with
      | none => simp [sndLe] at h1
      | some d =>
          cases z with
          | none => simp [sndLe] at h2
          | some e =>
              simp only [sndLe, decide_eq_true_eq] at h1 h2 ⊢
              exact le_trans h1 h2

theorem pairLe_total (p q : RV × RV) : (pairLe p q || pairLe q p) = true := by
  rw [Bool.or_eq_true]
  rcases p with ⟨p1, p2⟩
  rcases q with ⟨q1, q2⟩
  cases p1 with
  | none => left; cases q1 <;> rfl
  | some a =>
      cases q1 with
      | none => right; rfl
      | some c =>
          rcases lt_trichotomy a c with h | h | h
          · left; simp [pairLe, h]
          · subst h
            rcases sndLe_total p2 q2 with hs | hs
            · left; simp [pairLe, hs]
            · right; simp [pairLe, hs]
          · right; simp [pairLe, h]

theorem pairLe_trans (p q r : RV × RV) (h1 : pairLe p q = true) (h2 : pairLe q r = true) :
    pairLe p r = true := by
  rcases p with ⟨p1, p2⟩
  rcases q with ⟨q1, q2⟩
  rcases r with ⟨r1, r2⟩
  cases p1 with
  | none => cases r1 <;> rfl
  | some a =>
      cases q1 with
      | none => simp [pairLe] at h1
      | some b =>
          cases r1 with
          | none => simp [pairLe] at h2
          | some c =>
              simp only [pairLe, Bool.or_eq_true, Bool.and_eq_true, decide_eq_true_eq]
                at h1 h2 ⊢
              rcases h1 with h1 | ⟨h1, hs1⟩
              · rcases h2 with h2 | ⟨h2, -⟩
                · exact Or.inl (lt_trans h1 h2)
                · exact Or.inl (h2 ▸ h1)
              · rcases h2 with h2 | ⟨h2, hs2⟩
                · exact Or.inl (h1 ▸ h2)
                · exact Or.inr ⟨h1.trans h2, sndLe_trans hs1 hs2⟩

theorem pairwise_le_getLast {l : List (RV × RV)} (hl : l ≠ [])
    (hp : l.Pairwise (fun a b => pairLe a b = true)) :
    ∀ x ∈ l, x = l.getLast hl ∨ pairLe x (l.getLast hl) = true := by
  induction l with
  | nil => cases hl rfl
  | cons y ys ih =>
      cases ys with
      | nil =>
          intro x hx
          left
          simp only [List.mem_singleton] at hx
          simp [hx, List.getLast]
      | cons z zs =>
          intro x hx
          have hne : (z :: zs) ≠ [] := by simp
          rw [List.getLast_cons hne]
          rcases List.mem_cons.mp hx with rfl | hx2
          · right
            exact (List.pairwise_cons.mp hp).1 _ (List.getLast_mem hne)
          · exact ih hne (List.pairwise_cons.mp hp).2 x hx2

theorem foldl_radd_isSome {l : List RV} (hl : ∀ x ∈ l, ∃ r : ℝ, x = some r) :
    ∀ a : ℝ, ∃ r : ℝ, l.foldl radd (some a) = some r := by
  induction l with
  | nil => exact fun a => ⟨a, rfl⟩
  | cons x xs ih =>
      intro a
      obtain ⟨rx, hrx⟩ := hl x (by simp)
      rw [List.foldl_cons, hrx]
      exact ih (fun y hy => hl y (by simp [hy])) (a + rx)

theorem zipWith_rmul_isSome {xs ys : List RV}
    (hx : ∀ x ∈ xs, ∃ r : ℝ, x = some r) (hy : ∀ y ∈ ys, ∃ r : ℝ, y = some r) :
    ∀ z ∈ List.zipWith rmul xs ys, ∃ r : ℝ, z = some r := by
  induction xs generalizing ys with
  | nil => intro z hz; simp at hz
  | cons x xs' ih =>
      cases ys with
      | nil => intro z hz; simp at hz
      | cons y ys' =>
          intro z hz
          rcases List.mem_cons.mp hz with rfl | hz2
          · obtain ⟨rx, hrx⟩ := hx x (by simp)
            obtain ⟨ry, hry⟩ := hy y (by simp)
            exact ⟨rx * ry, by rw [hrx, hry]; rfl⟩
          · exact ih (fun u hu => hx u (by simp [hu])) (fun u hu => hy u (by simp [hu])) z hz2

theorem rinner_isSome {xs ys : List RV}
    (hx : ∀ x ∈ xs, ∃ r : ℝ, x = some r) (hy : ∀ y ∈ ys, ∃ r : ℝ, y = some r) :
    ∃ r : ℝ, rinner xs ys = some r :=
  foldl_radd_isSome (zipWith_rmul_isSome hx hy) 0

theorem unitGradOf_isSome {v : Mat} {c : ℕ} (hL : l2normOf v c ≠ 0) :
    ∀ x ∈ unitGradOf v c, ∃ r : ℝ, x = some r := by
  intro x hx
  unfold unitGradOf at hx
  obtain ⟨g, -, rfl⟩ := List.mem_map.mp hx
  exact ⟨g / l2normOf v c, by simp [rdiv, hL]⟩

theorem liftCol_isSome (M : Mat) (j : ℕ) : ∀ x ∈ liftCol M j, ∃ r : ℝ, x = some r := by
  intro x hx
  unfold liftCol at hx
  obtain ⟨r, -, rfl⟩ := List.mem_map.mp hx
  exact ⟨r, rfl⟩

theorem distance1_fst_isSome {d1 d2 v : Mat} {s2 : ℝ} {c : ℕ} (hL : l2normOf v c ≠ 0) :
    ∀ p ∈ distance1Of d1 d2 v s2 c, ∃ r : ℝ, p.1 = some r := by
  intro p hp
  unfold distance1Of at hp
  obtain ⟨o, -, rfl⟩ := List.mem_map.mp hp
  exact rinner_isSome (unitGradOf_isSome hL) (liftCol_isSome d1 o)

theorem quanWalk_of_never {l : List (RV × RV)} {T dflt : RV} :
    ∀ cum : RV,
      (∀ k, k < l.length → rle T ((((l.take (k + 1)).map Prod.snd).foldl radd cum)) = false) →
      quanWalk l T cum dflt = dflt := by
  induction l with
  | nil => intro cum _; rfl
  | cons p rest ih =>
      intro cum h
      have h0 := h 0 (by simp)
      simp only [List.take_succ_cons, List.take_zero, List.map_cons, List.map_nil,
        List.foldl_cons, List.foldl_nil] at h0
      unfold quanWalk
      rw [if_neg (by simp [h0])]
      apply ih (radd cum p.2)
      intro k hk
      have hx := h (k + 1) (by simpa using Nat.succ_lt_succ hk)
      simpa [List.take_succ_cons, List.foldl_cons] using hx

/-- C6: for every query sample of `adjust_shift_variance`, the matched
quantile coordinate `ref_quan` is the cumulative walk over the sorted
reference pairs at target `prob2 × totalprob1`; if the reference population
is empty it is the NA sentinel (`none`); and whenever the cumulative sum of
the sorted reference weights never reaches the target — an edge case that
exact arithmetic rules out, represented here by letting the walk run
against an arbitrary target value — it keeps its preset default, the
largest projection value occurring in the reference population. -/
theorem claim_refquan_edge_cases (d1 d2 v : Mat) (s2 : ℝ) (c : ℕ) :
    refQuanOf d1 d2 v s2 c = refQuanWith d1 d2 v s2 c (targetOf d1 d2 v s2 c) ∧
    (d1.ncol = 0 → refQuanOf d1 d2 v s2 c = none) ∧
    (∀ T : RV, 0 < d1.ncol → l2normOf v c ≠ 0 →
      (∀ k, k < (sorted1Of d1 d2 v s2 c).length →
        rle T ((((sorted1Of d1 d2 v s2 c).take (k + 1)).map Prod.snd).foldl radd (some 0))
          = false) →
      refQuanWith d1 d2 v s2 c T = refQuanDefault d1 d2 v s2 c ∧
      refQuanDefault d1 d2 v s2 c ∈ (distance1Of d1 d2 v s2 c).map Prod.fst ∧
      ∀ q ∈ (distance1Of d1 d2 v s2 c).map Prod.fst,
        rle q (refQuanDefault d1 d2 v s2 c) = true) := by
  refine ⟨rfl, fun h0 => ?_, fun T hn hL hT => ?_⟩
  · unfold refQuanOf refQuanWith refQuanDefault sorted1Of distance1Of
    rw [h0]
    simp [quanWalk, List.mergeSort_nil]
  · have hperm := List.mergeSort_perm (distance1Of d1 d2 v s2 c) pairLe
    have hlen : (sorted1Of d1 d2 v s2 c).length = d1.ncol := by
      unfold sorted1Of
      rw [hperm.length_eq]
      simp [distance1Of]
    have hne : sorted1Of d1 d2 v s2 c ≠ [] := by
      intro hnil
      rw [hnil] at hlen
      simp at hlen
      omega
    have hdf : refQuanDefault d1 d2 v s2 c = ((sorted1Of d1 d2 v s2 c).getLast hne).1 := by
      unfold refQuanDefault
      rw [List.getLast?_eq_getLast _ hne]
    have hlastmem : (sorted1Of d1 d2 v s2 c).getLast hne ∈ distance1Of d1 d2 v s2 c := by
      have hm := List.getLast_mem hne
      unfold sorted1Of at hm
      exact hperm.mem_iff.mp hm
    refine ⟨?_, ?_, ?_⟩
    · unfold refQuanWith
      exact quanWalk_of_never (some 0) hT
    · rw [hdf]
      exact List.mem_map_of_mem Prod.fst hlastmem
    · intro q hq
      obtain ⟨p, hp, rfl⟩ := List.mem_map.mp hq
      have hpmem : p ∈ sorted1Of d1 d2 v s2 c := by
        unfold sorted1Of
        exact hperm.mem_iff.mpr hp
      have hsorted : (sorted1Of d1 d2 v s2 c).Pairwise (fun a b => pairLe a b = true) := by
        unfold sorted1Of
        exact List.sorted_mergeSort pairLe_trans pairLe_total _
      obtain ⟨rp, hrp⟩ := distance1_fst_isSome hL p hp
      obtain ⟨rm, hrm⟩ := distance1_fst_isSome hL _ hlastmem
      rcases pairwise_le_getLast hne hsorted p hpmem with heq | hle
      · rw [hdf, ← heq, hrp]
        simp [rle]
      · rw [hdf, hrp, hrm]
        unfold pairLe at hle
        rw [hrp, hrm] at hle
        simp only [Bool.or_eq_true, Bool.and_eq_true, decide_eq_true_eq] at hle
        simp only [rle, decide_eq_true_eq]
        rcases hle with h | ⟨h, -⟩
        · exact le_of_lt h
        · exact le_of_eq h

theorem claim_refquan_edge_cases_witness :
    refQuanWith ⟨1, 1, fun _ _ => 5⟩ ⟨1, 1, fun _ _ => 5⟩ ⟨1, 1, fun _ _ => 1⟩ 1 0 (some 1000)
      = refQuanDefault ⟨1, 1, fun _ _ => 5⟩ ⟨1, 1, fun _ _ => 5⟩ ⟨1, 1, fun _ _ => 1⟩ 1 0 := by
  have hL : l2normOf ⟨1, 1, fun _ _ => 1⟩ 0 = 1 := by
    norm_num [l2normOf, Mat.row, List.range_succ]
  have hsort : sorted1Of ⟨1, 1, fun _ _ => 5⟩ ⟨1, 1, fun _ _ => 5⟩ ⟨1, 1, fun _ _ => 1⟩ 1 0
      = [(some 5, some 1)] := by
    norm_num [sorted1Of, distance1Of, unitGradOf, liftCol, hL, Mat.row, Mat.col,
      rinner, rmul, radd, rdiv, rsub, rneg, rexp, rsum, sq_distance_to_line, kernelWeight,
      List.range_succ, List.mergeSort_singleton, Real.exp_zero]
  have hT : ∀ k, k < (sorted1Of ⟨1, 1, fun _ _ => 5⟩ ⟨1, 1, fun _ _ => 5⟩
      ⟨1, 1, fun _ _ => 1⟩ 1 0).length →
      rle (some 1000)
        ((((sorted1Of ⟨1, 1, fun _ _ => 5⟩ ⟨1, 1, fun _ _ => 5⟩ ⟨1, 1, fun _ _ => 1⟩ 1 0).take
          (k + 1)).map Prod.snd).foldl radd (some 0)) = false := by
    intro k hk
    rw [hsort] at hk ⊢
    have hk0 : k = 0 := by simpa using hk
    subst hk0
    simp only [List.take_succ_cons, List.take_zero, List.map_cons, List.map_nil,
      List.foldl_cons, List.foldl_nil, radd, rle]
    rw [decide_eq_false_iff_not]
    norm_num
  exact ((claim_refquan_edge_cases ⟨1, 1, fun _ _ => 5⟩ ⟨1, 1, fun _ _ => 5⟩
    ⟨1, 1, fun _ _ => 1⟩ 1 0).2.2 (some 1000) one_pos (by rw [hL]; norm_num) hT).1

end

end Batchelor
